import Mathlib

/-!
Verification development for the streaming CSV reader of `include/reader.hpp`
(namespace `csv`, class `Reader`).

Modelling conventions:
* C++ `std::string` is modelled as `List Char` (abbreviated `Str`).
  `std::string::operator[]` applied at position `size()` returns a null
  character; that read is modelled by `List.headD rest '\x00'` on an empty
  remaining suffix (the scanner in `Reader::split` reads at most one
  position past the last character, never further).
* The character-level scanner of `Reader::split` walks an index `i` that is
  also advanced inside the nested delimiter-matching loop, so the loop is
  modelled as a recursion over the remaining suffix of the input.  Each
  outer iteration advances the position by at least one, hence the loop
  performs at most `length input` iterations; the recursion uses that
  length as a structural fuel bound and `scanAuxF_fuel_irrelevant` proves
  the bound is never hit early.
* `robin_map<string, string>` is modelled as an association list with
  insert-or-assign and erase (the spec declares insertion order
  irrelevant and keys unique).
* The concurrent queues are modelled as FIFO lists; `try_dequeue(x)` is
  the non-blocking attempt that pops the front element into `x` when the
  queue is non-empty and leaves `x` unchanged otherwise (`done()` and
  `ready()` rely on exactly this failure behaviour).
* The two background stages and the consumer loop are modelled as the
  sequential execution in which the pipeline runs to completion before
  the consumer iterates; the consumer loop `rows()` gets an explicit
  iteration budget (`fuel`) because the C++ `while (!done())` loop has no
  termination guarantee of its own.
-/

namespace Csv

/-- Strings of the C++ code, as lists of characters. -/
abbrev Str : Type := List Char

/-- Modelled from the spec: `dialect.hpp` is not among the sources, so the
`Dialect` record is reconstructed from the fields that `reader.hpp`
accesses (`delimiter_`, `quote_character_`, `double_quote_`,
`skip_initial_space_`, `header_`, `column_names_`, `ignore_columns_`,
`trim_characters_`) and §3/§4.1 of the specification (delimiter sequence,
single quote character, boolean double-quote escaping, boolean
skip-initial-space, boolean header, explicit column names, ignored column
names, trim-character set). -/
structure Dialect where
  delimiter_ : Str
  quote_character_ : Char
  double_quote_ : Bool
  skip_initial_space_ : Bool
  header_ : Bool
  column_names_ : List Str
  ignore_columns_ : List Str
  trim_characters_ : List Char
deriving DecidableEq, Repr

/-- Modelled from the spec: the default-constructed `Dialect`
(`dialect.hpp` is not among the sources; the spec does not fix the
defaults, so neutral values are chosen: comma delimiter, double-quote
quote character, all boolean policies off, empty name lists and empty
trim set).  The claims never depend on these defaults beyond the fields
that `reader.hpp` itself configures. -/
def defaultDialect : Dialect where
  delimiter_ := [',']
  quote_character_ := '"'
  double_quote_ := false
  skip_initial_space_ := false
  header_ := false
  column_names_ := []
  ignore_columns_ := []
  trim_characters_ := []

/-- `Reader::ltrim`: erase from the left end every leading character that
belongs to the dialect's `trim_characters_`. -/
def ltrim (d : Dialect) (input : Str) : Str :=
  input.dropWhile (fun ch => decide (ch ∈ d.trim_characters_))

/-- `Reader::rtrim`: erase from the right end every trailing character
that belongs to the dialect's `trim_characters_`. -/
def rtrim (d : Dialect) (input : Str) : Str :=
  (input.reverse.dropWhile (fun ch => decide (ch ∈ d.trim_characters_))).reverse

/-- `Reader::trim`: identity when the trim set is empty, otherwise
`ltrim (rtrim input)`. -/
def trim (d : Dialect) (input : Str) : Str :=
  if d.trim_characters_ = [] then input else ltrim d (rtrim d input)

/-- Result of one execution of the inner delimiter-matching `for (j ...)`
loop of `Reader::split`: whether a delimiter was detected, the remaining
suffix at the final scan position, the accumulator `sub_result`, the
counter `quotes_encountered`, and the field pushed onto `result` (if
any). -/
structure ScanStep where
  detected : Bool
  rest : Str
  sub : Str
  quotes : Nat
  pushed : Option Str
deriving Repr

/-- The inner `for (j = 0; j < delimiter_.size(); ++j)` loop of
`Reader::split`, recursing over the not-yet-matched tail of the
delimiter.  `rest` is the input suffix starting at the current scan
position `i`:
* mismatch at the current position leaves everything unchanged;
* a full match with `quotes_encountered` even pushes `trim sub_result`,
  clears the accumulator, resets the counter and (with
  `skip_initial_space_`) steps over one following literal space;
* a full match with the counter odd appends the delimiter character to
  `sub_result` and advances by one;
* a partial match advances by one and keeps matching, breaking out when
  the input is exhausted. -/
def innerScan (d : Dialect) : List Char → Str → Str → Nat → ScanStep
  | [], rest, sub, q => ⟨false, rest, sub, q, none⟩
  | dc :: ds, rest, sub, q =>
    if rest.headD '\x00' ≠ dc then ⟨false, rest, sub, q, none⟩
    else
      match ds with
      | [] =>
        if q % 2 = 0 then
          ⟨true,
           if rest.tail ≠ [] ∧ d.skip_initial_space_ = true ∧ rest.tail.headD '\x00' = ' '
           then rest.tail else rest,
           [], 0, some (trim d sub)⟩
        else ⟨false, rest.tail, sub ++ [rest.headD '\x00'], q, none⟩
      | _ :: _ =>
        if rest.tail = [] then ⟨false, rest.tail, sub, q, none⟩
        else innerScan d ds rest.tail sub q

/-- The outer `for (i = 0; i < input_string.size(); ++i)` loop of
`Reader::split`, with an explicit fuel bound on the number of
iterations (each iteration consumes at least one character, see
`scanAuxF_fuel_irrelevant`).  After the inner loop, when no delimiter was
detected the character at the final position is appended to `sub_result`
(`input_string[i]`, which is the null character when the inner loop ran
off the end); then `quotes_encountered` is incremented on a quote
character and decremented again when a doubled quote directly precedes
it in `sub_result`. -/
def scanAuxF (d : Dialect) : Nat → Str → List Str → Str → Nat → (List Str × Str)
  | 0, _, res, sub, _ => (res, sub)
  | _ + 1, [], res, sub, _ => (res, sub)
  | fuel + 1, rest@(_ :: _), res, sub, q =>
    let step := innerScan d d.delimiter_ rest sub q
    let res1 := res ++ step.pushed.toList
    let cur := step.rest.headD '\x00'
    let sub1 := if step.detected then step.sub else step.sub ++ [cur]
    let q1 := if cur = d.quote_character_ then step.quotes + 1 else step.quotes
    let q2 :=
      if cur = d.quote_character_ ∧ d.double_quote_ = true ∧ 2 ≤ sub1.length ∧
          sub1.getD (sub1.length - 2) '\x00' = cur
      then q1 - 1 else q1
    scanAuxF d fuel step.rest.tail res1 sub1 q2

/-- The scanner of `Reader::split` started with enough fuel for the whole
input. -/
def scanAux (d : Dialect) (rest : Str) (res : List Str) (sub : Str) (q : Nat) :
    List Str × Str :=
  scanAuxF d rest.length rest res sub q

/-- `Reader::split`: run the scanner over the line, then append the final
accumulated `sub_result` (trimmed) only when it is non-empty. -/
def split (d : Dialect) (input_string : Str) : List Str :=
  let p := scanAux d input_string [] [] 0
  if p.2 ≠ [] then p.1 ++ [trim d p.2] else p.1

/-- Spec-side definition (for comparison with `split`): divide a line at
every occurrence of the delimiter character, as in "the line divided at
every delimiter occurrence" (§8 of the spec).  The empty line divides
into one empty field. -/
def divide (c : Char) : Str → List Str
  | [] => [[]]
  | x :: xs =>
    if x = c then [] :: divide c xs
    else
      match divide c xs with
      | [] => [[x]]
      | h :: t => (x :: h) :: t

/-- `robin_map<std::string, std::string>` as an association list (the
spec declares insertion order irrelevant and keys unique). -/
abbrev Rmap : Type := List (Str × Str)

/-- `map[k] = v`: insert-or-assign. -/
def rinsert : Rmap → Str → Str → Rmap
  | [], k, v => [(k, v)]
  | (k', v') :: t, k, v =>
    if k' = k then (k', v) :: t else (k', v') :: rinsert t k v

/-- `map.erase(k)`. -/
def rerase (m : Rmap) (k : Str) : Rmap :=
  m.filter (fun p => decide (p.1 ≠ k))

/-- The keys of a map. -/
def rkeys (m : Rmap) : List Str := m.map Prod.fst

/-- `map.find(k)` / `map[k]` lookup. -/
def rlookup : Rmap → Str → Option Str
  | [], _ => none
  | (k', v') :: t, k => if k' = k then some v' else rlookup t k

/-- The pre-scan of `Reader::read`: count the lines of the file with
`std::getline`, then subtract one when the active dialect declares a
header and at least one line was counted.  The file is modelled as its
list of getline-lines. -/
def prescan (d : Dialect) (lines : List Str) : Nat :=
  if d.header_ = true ∧ 0 < lines.length then lines.length - 1 else lines.length

/-- Strip one trailing carriage return, as `read_internal` does on every
line obtained from `getline`. -/
def stripCR (l : Str) : Str :=
  if l ≠ [] ∧ l.getLast? = some '\r' then l.dropLast else l

/-- `std::to_string` for the synthesized `"0","1",...` headers. -/
def natToStr (n : Nat) : Str := Nat.toDigits 10 n

/-- Header determination of `Reader::read_internal`: split the first line
(carriage return stripped); with `header_` the split is the header row,
otherwise the explicit `column_names_` are used when non-empty, else
zero-based indices are synthesized, one per field of the first line. -/
def headersOf (d : Dialect) (lines : List Str) : List Str :=
  if d.header_ = true then split d (stripCR (lines.headD []))
  else if d.column_names_ ≠ [] then d.column_names_
  else (List.range (split d (stripCR (lines.headD []))).length).map natToStr

/-- The data lines handed to the splitter: everything after the header
line, or (headerless dialect: the stream is rewound) every line. -/
def dataLinesOf (d : Dialect) (lines : List Str) : List Str :=
  if d.header_ = true then lines.tail else lines

/-- The field values pushed one by one onto the value queue by
`read_internal`: each data line is stripped of a trailing carriage
return, split, and its fields enqueued in order. -/
def valuesOf (d : Dialect) (lines : List Str) : List Str :=
  ((dataLinesOf d lines).map (fun l => split d (stripCR l))).flatten

/-- The initial `current_row_` built by `read_internal`: one empty entry
per header, with every ignored column erased again. -/
def initRow (headers ignore : List Str) : Rmap :=
  ignore.foldl (fun m k => rerase m k)
    (headers.foldl (fun m h => rinsert m h []) [])

/-- Result of `Reader::process_values`: the successive values of
`number_of_rows` published on the `number_of_rows_processed_` queue, the
rows pushed onto the row queue, and the final `current_row_` buffer. -/
structure PvResult where
  pubs : List Nat
  rows : List Rmap
  cur : Rmap
deriving Repr

/-- The loop of `Reader::process_values` over the value queue, which is
modelled as the list of values the splitter ever enqueues (`front`
succeeds until the list is exhausted; after that the loop would spin
without publishing anything further, so the model stops).  The loop
breaks when `number_of_rows` reaches `expected`; otherwise it dequeues a
value, assigns it to column `headers[index % cols]` unless that column
is ignored, and after every `cols`-th value copies `current_row_` onto
the row queue and publishes the incremented row count. -/
def process_values_aux (headers ignore : List Str) (expected : Nat) :
    List Str → Nat → Nat → Rmap → PvResult
  | [], _, _, cur => ⟨[], [], cur⟩
  | v :: rest, index, nrows, cur =>
    if nrows = expected then ⟨[], [], cur⟩
    else
      let cols := headers.length
      let column_name := headers.getD (index % cols) []
      let cur1 := if column_name ∈ ignore then cur else rinsert cur column_name v
      if (index + 1) % cols = 0 then
        let r := process_values_aux headers ignore expected rest (index + 1) (nrows + 1) cur1
        ⟨(nrows + 1) :: r.pubs, cur1 :: r.rows, r.cur⟩
      else process_values_aux headers ignore expected rest (index + 1) nrows cur1

/-- `Reader::process_values` started on a fresh index and row count. -/
def process_values (headers ignore : List Str) (expected : Nat)
    (values : List Str) (cur0 : Rmap) : PvResult :=
  process_values_aux headers ignore expected values 0 0 cur0

/-- The state observed by the iteration protocol (`done` / `ready` /
`next_row` / `rows`): the row-iterator queue used as a mailbox, the
published row-count queue, the row queue, the three cached index
members, `expected_number_of_rows_` and `processing_thread_started_`. -/
structure IterState where
  riq : List Nat
  nrp : List Nat
  rowsq : List Rmap
  done_index : Nat
  ready_index : Nat
  next_index : Nat
  expected : Nat
  started : Bool
deriving DecidableEq, Repr

/-- `try_dequeue(old)` on a FIFO queue: pop the front element when the
queue is non-empty, otherwise leave the out-parameter at its previous
value.  (`done()` and `ready()` depend on this failure behaviour: the
first `done()` call finds the mailbox empty and keeps the cached
index.) -/
def tryDequeue {α : Type} : List α → α → α × List α
  | [], old => (old, [])
  | x :: xs, _ => (x, xs)

/-- `Reader::done`: when processing has started, peek the row-iterator
mailbox (dequeue then re-enqueue) and report completion when no rows are
expected or the peeked index + 1 equals the expected row count. -/
def doneStep (s : IterState) : Bool × IterState :=
  if s.started = true then
    let p := tryDequeue s.riq s.done_index
    (decide (s.expected = 0 ∨ p.1 + 1 = s.expected),
     { s with riq := p.2 ++ [p.1], done_index := p.1 })
  else (false, s)

/-- `Reader::ready`: consume one published row count (defaulting to 0)
and the mailbox index (defaulting to the cached one); a row is ready
when that index is below both the expected and the published counts. -/
def readyStep (s : IterState) : Bool × IterState :=
  let pr := tryDequeue s.nrp 0
  let pi := tryDequeue s.riq s.ready_index
  (decide (pi.1 < s.expected ∧ pi.1 < pr.1),
   { s with nrp := pr.2, riq := pi.2, ready_index := pi.1 })

/-- `Reader::next_row`: enqueue the current `next_index_` onto the
mailbox, increment it, and try-dequeue the row queue into a
default-constructed (empty) row. -/
def next_row (s : IterState) : Rmap × IterState :=
  let p := tryDequeue s.rowsq []
  (p.1,
   { s with riq := s.riq ++ [s.next_index], next_index := s.next_index + 1,
            rowsq := p.2 })

/-- The loop of `Reader::rows`: while not `done()`, collect `next_row()`
whenever `ready()` holds.  The C++ loop has no termination guarantee of
its own, so the model carries an explicit iteration budget. -/
def rowsLoop : Nat → IterState → List Rmap → List Rmap × IterState
  | 0, s, acc => (acc, s)
  | fuel + 1, s, acc =>
    let pd := doneStep s
    if pd.1 = true then (acc, pd.2)
    else
      let pr := readyStep pd.2
      if pr.1 = true then
        let pn := next_row pr.2
        rowsLoop fuel pn.2 (acc ++ [pn.1])
      else rowsLoop fuel pr.2 acc

/-- The pipeline state after `read(path)` has been issued on a file with
the given getline-lines and both background stages have run to
completion (splitter first, then assembler), before the consumer starts
iterating: the mailbox is still empty, the published row counts and the
assembled rows sit in their queues, the cached indices are 0 and
processing has started. -/
def pipelineState (d : Dialect) (lines : List Str) : IterState :=
  let expected := prescan d lines
  let headers := headersOf d lines
  let r := process_values headers d.ignore_columns_ expected (valuesOf d lines)
    (initRow headers d.ignore_columns_)
  ⟨[], r.pubs, r.rows, 0, 0, 0, expected, true⟩

/-- `Reader::rows` called by the consumer after the pipeline completed. -/
def rowsAfter (d : Dialect) (lines : List Str) (fuel : Nat) : List Rmap :=
  (rowsLoop fuel (pipelineState d lines) []).1

/-- The dialect registry and active-dialect name of a `Reader`. -/
structure ReaderState where
  dialects_ : List (Str × Dialect)
  current_dialect_ : Str
deriving DecidableEq, Repr

/-- `dialects_.find(name)` on the registry. -/
def lookupD : List (Str × Dialect) → Str → Option Dialect
  | [], _ => none
  | (k, v) :: t, name => if k = name then some v else lookupD t name

/-- `dialects_[name] = dialect`: insert-or-assign into the registry. -/
def registerD : List (Str × Dialect) → Str → Dialect → List (Str × Dialect)
  | [], k, v => [(k, v)]
  | (k', v') :: t, k, v =>
    if k' = k then (k', v) :: t else (k', v') :: registerD t k v

/-- The registry built by the `Reader` constructor: built-in dialects
"unix", "excel" (comma delimiter, quote character `"`, double-quote
escaping, header on) and "excel_tab" (the same with a tab delimiter),
with "excel" active. -/
def initReader : ReaderState :=
  ⟨[("unix".toList,
      { defaultDialect with delimiter_ := [','], quote_character_ := '"',
                            double_quote_ := true, header_ := true }),
    ("excel".toList,
      { defaultDialect with delimiter_ := [','], quote_character_ := '"',
                            double_quote_ := true, header_ := true }),
    ("excel_tab".toList,
      { defaultDialect with delimiter_ := ['\t'], quote_character_ := '"',
                            double_quote_ := true, header_ := true })],
   "excel".toList⟩

/-- `Reader::use_dialect`: unconditionally overwrite
`current_dialect_` with the requested name, then throw a "not found"
error when the name is not registered.  The returned pair is the state
after the call together with the thrown error message (if any). -/
def use_dialect (s : ReaderState) (name : Str) : ReaderState × Option Str :=
  ({ s with current_dialect_ := name },
   if (lookupD s.dialects_ name).isSome = true then none
   else some ("error: Dialect ".toList ++ name ++ " not found".toList))

/-- `Reader::configure_dialect`: return the registered dialect when the
name is found, leaving the reader untouched; otherwise register a fresh
default-constructed dialect under the name, make it the active dialect
and return it. -/
def configure_dialect (s : ReaderState) (name : Str) : Dialect × ReaderState :=
  match lookupD s.dialects_ name with
  | some dl => (dl, s)
  | none =>
    (defaultDialect,
     { s with dialects_ := registerD s.dialects_ name defaultDialect,
              current_dialect_ := name })

/-- A dialect with comma delimiter, quote character `"`, double-quote
escaping, header on, no trimming, no skip-initial-space (the
configuration of the built-in "excel"/"unix" dialects). -/
def dialectComma : Dialect := ⟨[','], '"', true, false, true, [], [], []⟩

/-- `dialectComma` with the quote character added to the trim set. -/
def dialectCommaTrimQuote : Dialect := ⟨[','], '"', true, false, true, [], [], ['"']⟩

/-- `dialectComma` with `skip_initial_space_` enabled. -/
def dialectCommaSkip : Dialect := ⟨[','], '"', true, true, true, [], [], []⟩

/-- A dialect with the two-character delimiter `"::"`, quote character
`"`, double-quote escaping, header on, no trimming. -/
def dialectColons : Dialect := ⟨[':', ':'], '"', true, false, true, [], [], []⟩

/-- An iteration-protocol state in which processing has started, one row
is expected, and nothing has been split, assembled or published yet. -/
def noRowState : IterState := ⟨[], [], [], 0, 0, 0, 1, true⟩

/-- A line containing no two adjacent colons, i.e. no occurrence of the
full delimiter sequence of `dialectColons`. -/
def noAdjacentColons : Str → Bool
  | [] => true
  | [_] => true
  | x :: y :: r =>
    if x = ':' ∧ y = ':' then false else noAdjacentColons (y :: r)

/-- The inner loop never moves the scan position backwards: the remaining
suffix it returns is a suffix of (hence no longer than) the one it was
given. -/
theorem innerScan_rest_length_le (d : Dialect) :
    ∀ (dl : List Char) (rest sub : Str) (q : Nat),
      (innerScan d dl rest sub q).rest.length ≤ rest.length := by
  intro dl
  induction dl with
  | nil => intro rest sub q; simp [innerScan]
  | cons dc ds ih =>
    intro rest sub q
    cases ds with
    | nil =>
      simp only [innerScan]
      split
      · simp
      · split
        · split
          · simp [List.length_tail]
          · simp
        · simp [List.length_tail]
    | cons e es =>
      simp only [innerScan]
      split
      · simp
      · split
        · simp [List.length_tail]
        · exact Nat.le_trans (ih rest.tail sub q) (by simp [List.length_tail])

/-- Any fuel of at least `rest.length` computes the same scan result, so
the fuel bound in `scanAux` is never reached early: the fuel-guarded
recursion is exactly the C++ loop. -/
theorem scanAuxF_fuel_irrelevant (d : Dialect) :
    ∀ (fuel : Nat) (rest : Str) (res : List Str) (sub : Str) (q : Nat),
      rest.length ≤ fuel →
      scanAuxF d fuel rest res sub q = scanAuxF d rest.length rest res sub q := by
  intro fuel
  induction fuel using Nat.strong_induction_on with
  | _ fuel ih =>
    intro rest res sub q h
    match fuel, rest with
    | 0, rest =>
      have hr : rest = [] := by
        cases rest with
        | nil => rfl
        | cons a l => simp at h
      subst hr; rfl
    | n + 1, [] => rfl
    | n + 1, a :: l =>
      simp only [List.length_cons] at h
      simp only [scanAuxF, List.length_cons]
      have hlen := innerScan_rest_length_le d d.delimiter_ (a :: l) sub q
      simp only [List.length_cons] at hlen
      have h1 : (innerScan d d.delimiter_ (a :: l) sub q).rest.tail.length ≤ n := by
        simp only [List.length_tail]
        omega
      have h2 : (innerScan d d.delimiter_ (a :: l) sub q).rest.tail.length ≤ l.length := by
        simp only [List.length_tail]
        omega
      rw [ih n (Nat.lt_succ_self n) _ _ _ _ h1,
        ih l.length (by omega) _ _ _ _ h2]

/-- Unfolding equation of the scanner on the empty suffix. -/
theorem scanAux_nil (d : Dialect) (res : List Str) (sub : Str) (q : Nat) :
    scanAux d [] res sub q = (res, sub) := rfl

/-- Unfolding equation of the scanner on a non-empty suffix: one outer
loop iteration of `Reader::split`. -/
theorem scanAux_cons (d : Dialect) (x : Char) (xs : Str) (res : List Str)
    (sub : Str) (q : Nat) :
    scanAux d (x :: xs) res sub q =
      (let step := innerScan d d.delimiter_ (x :: xs) sub q
       let res1 := res ++ step.pushed.toList
       let cur := step.rest.headD '\x00'
       let sub1 := if step.detected then step.sub else step.sub ++ [cur]
       let q1 := if cur = d.quote_character_ then step.quotes + 1 else step.quotes
       let q2 :=
         if cur = d.quote_character_ ∧ d.double_quote_ = true ∧ 2 ≤ sub1.length ∧
             sub1.getD (sub1.length - 2) '\x00' = cur
         then q1 - 1 else q1
       scanAux d step.rest.tail res1 sub1 q2) := by
  simp only [scanAux, List.length_cons, scanAuxF]
  have hlen := innerScan_rest_length_le d d.delimiter_ (x :: xs) sub q
  simp only [List.length_cons] at hlen
  apply scanAuxF_fuel_irrelevant
  simp only [List.length_tail]
  omega

/-- Registering a dialect makes it found by name. -/
theorem lookupD_registerD_self :
    ∀ (l : List (Str × Dialect)) (k : Str) (v : Dialect),
      lookupD (registerD l k v) k = some v := by
  intro l k v
  induction l with
  | nil => simp [registerD, lookupD]
  | cons p t ih =>
    obtain ⟨k', v'⟩ := p
    by_cases hk : k' = k
    · simp [registerD, lookupD, hk]
    · simp [registerD, lookupD, hk, ih]

/-- C1: for a CSV file consisting of the header line `a` and the single
well-formed data line `1` (so N = 1), the pre-scan sets
`expected_number_of_rows` to 1 and the Assembly Stage does assemble the
one row, but a consumer that calls `rows()` after the pipeline has
completed observes zero rows: the very first `done()` call finds the
mailbox empty, keeps the initial `done_index_ = 0`, and reports
`0 + 1 == expected_number_of_rows`, so the loop exits before claiming
anything.  This contradicts the round-trip property the specification
itself states ("exactly N rows are observed via `rows()`"). -/
theorem c1_single_data_row_lost :
    prescan dialectComma [['a'], ['1']] = 1 ∧
    (pipelineState dialectComma [['a'], ['1']]).rowsq =
      [[(['a'], ['1'])]] ∧
    rowsAfter dialectComma [['a'], ['1']] 2 = [] := by
  decide

/-- C2 counterexample: under a comma/quote-`"`/double-quote dialect,
`split` does not return `a,b` for the line `"a,b"` (the quotes are kept
in the field), and it does not return `a"b` for the line `"a""b"` — the
doubled quote is never collapsed, with an empty trim set or with the
quote character trimmed. -/
theorem c2_counterexample :
    split dialectComma ("\"a,b\"".toList) ≠ [("a,b".toList)] ∧
    split dialectComma ("\"a\"\"b\"".toList) ≠ [("a\"b".toList)] ∧
    split dialectCommaTrimQuote ("\"a\"\"b\"".toList) ≠ [("a\"b".toList)] := by
  decide

/-- C2 amended: both lines split into a single field, but the quote
characters are preserved verbatim: `"a,b"` yields the field `"a,b"`
(or `a,b` once the quote character is in the trim set), and `"a""b"`
yields `"a""b"` (or `a""b` trimmed) — the doubled quote is never
collapsed into a single quote. -/
theorem c2_amended_quotes_kept_verbatim :
    split dialectComma ("\"a,b\"".toList) = [("\"a,b\"".toList)] ∧
    split dialectCommaTrimQuote ("\"a,b\"".toList) = [("a,b".toList)] ∧
    split dialectComma ("\"a\"\"b\"".toList) = [("\"a\"\"b\"".toList)] ∧
    split dialectCommaTrimQuote ("\"a\"\"b\"".toList) = [("a\"\"b".toList)] := by
  decide

/-- C7 counterexample: in a state where processing has started but no
row has been assembled (`ready()` is false), `next_row()` does not block
waiting for the next completed row: its row-queue dequeue is the
non-blocking `try_dequeue`, so it immediately returns the
default-constructed empty row while still advancing the index cell. -/
theorem c7_counterexample :
    (readyStep noRowState).1 = false ∧
    next_row noRowState =
      ([], { noRowState with riq := [0], next_index := 1 }) := by
  decide

/-- C7 amended: `next_row()` enqueues the cached `next_index_` onto the
index mailbox and increments it by exactly one, then performs a
non-blocking try-dequeue on the row queue: it returns the front row when
one is present and the default-constructed empty row otherwise, never
blocking. -/
theorem c7_amended_next_row_nonblocking (s : IterState) :
    (next_row s).2.next_index = s.next_index + 1 ∧
    (next_row s).2.riq = s.riq ++ [s.next_index] ∧
    (next_row s).1 = s.rowsq.headD [] ∧
    (next_row s).2.rowsq = s.rowsq.tail := by
  cases h : s.rowsq <;> simp [next_row, tryDequeue, h]

/-- C7 witness: the amended statement instantiated at the concrete state
with no assembled rows. -/
theorem c7_witness :
    (next_row noRowState).2.next_index = noRowState.next_index + 1 ∧
    (next_row noRowState).2.riq = noRowState.riq ++ [noRowState.next_index] ∧
    (next_row noRowState).1 = noRowState.rowsq.headD [] ∧
    (next_row noRowState).2.rowsq = noRowState.rowsq.tail :=
  c7_amended_next_row_nonblocking noRowState

/-- C9: calling `use_dialect` with an unregistered name overwrites
`current_dialect_` with that name before the "not found" error is
thrown, so after the failed call the active dialect is the unregistered
name, not the previous one. -/
theorem c9_use_dialect_mutates_before_throw (s : ReaderState) (name : Str)
    (h : lookupD s.dialects_ name = none) :
    (use_dialect s name).2.isSome = true ∧
    (use_dialect s name).1.current_dialect_ = name := by
  simp [use_dialect, h]

/-- C9 witness: on the freshly constructed reader, `use_dialect "nope"`
throws and leaves `"nope"` as the active dialect. -/
theorem c9_witness :
    lookupD initReader.dialects_ ("nope".toList) = none ∧
    ((use_dialect initReader ("nope".toList)).2.isSome = true ∧
     (use_dialect initReader ("nope".toList)).1.current_dialect_ =
       "nope".toList) :=
  ⟨by decide, c9_use_dialect_mutates_before_throw initReader ("nope".toList)
    (by decide)⟩

/-- C10: `configure_dialect` with a registered name returns that dialect
and leaves the reader (registry and active dialect) unchanged; with an
unregistered name it returns a fresh default-constructed dialect,
registers it under the name and makes that name the active dialect. -/
theorem c10_configure_dialect (s : ReaderState) (name : Str) :
    ((lookupD s.dialects_ name).isSome = true →
      configure_dialect s name =
        ((lookupD s.dialects_ name).getD defaultDialect, s)) ∧
    (lookupD s.dialects_ name = none →
      (configure_dialect s name).1 = defaultDialect ∧
      (configure_dialect s name).2.current_dialect_ = name ∧
      (configure_dialect s name).2.dialects_ =
        registerD s.dialects_ name defaultDialect ∧
      lookupD (configure_dialect s name).2.dialects_ name =
        some defaultDialect) := by
  constructor
  · intro h
    cases hl : lookupD s.dialects_ name with
    | none => rw [hl] at h; simp at h
    | some dl => simp [configure_dialect, hl]
  · intro h
    simp [configure_dialect, h]
    exact lookupD_registerD_self s.dialects_ name defaultDialect

/-- C10 witness: configuring the built-in "excel" returns the registered
dialect and changes nothing. -/
theorem c10_witness :
    (lookupD initReader.dialects_ ("excel".toList)).isSome = true ∧
    configure_dialect initReader ("excel".toList) =
      ((lookupD initReader.dialects_ ("excel".toList)).getD defaultDialect,
       initReader) :=
  ⟨by decide, (c10_configure_dialect initReader ("excel".toList)).1 (by decide)⟩

/-- `noAdjacentColons` is closed under taking tails. -/
theorem noAdjacentColons_tail :
    ∀ (a : Char) (l : Str), noAdjacentColons (a :: l) = true →
      noAdjacentColons l = true := by
  intro a l h
  cases l with
  | nil => rfl
  | cons b r =>
    rw [noAdjacentColons] at h
    by_cases hab : a = ':' ∧ b = ':'
    · simp [hab] at h
    · simpa [hab] using h

/-- On a line with no occurrence of the full `"::"` delimiter sequence,
the scanner of `split` under `dialectColons` never recognizes a field
boundary: the result list it returns is exactly the one it was given. -/
theorem scanAux_colons_no_push :
    ∀ (n : Nat) (rest : Str), rest.length ≤ n →
      noAdjacentColons rest = true →
      ∀ (res : List Str) (sub : Str) (q : Nat),
        (scanAux dialectColons rest res sub q).1 = res := by
  intro n
  induction n with
  | zero =>
    intro rest hlen _ res sub q
    have hr : rest = [] := by
      cases rest with
      | nil => rfl
      | cons a l => simp at hlen
    subst hr; rfl
  | succ n ih =>
    intro rest hlen hna res sub q
    match rest with
    | [] => rfl
    | x :: xs =>
      rw [scanAux_cons]
      by_cases hx : x = ':'
      · match xs with
        | [] =>
          subst hx
          simp [innerScan, dialectColons, scanAux_nil]
        | y :: r =>
          have hy : y ≠ ':' := by
            intro hy
            rw [noAdjacentColons, if_pos ⟨hx, hy⟩] at hna
            exact Bool.false_ne_true hna
          subst hx
          have hstep :
              innerScan dialectColons dialectColons.delimiter_
                (':' :: y :: r) sub q = ⟨false, y :: r, sub, q, none⟩ := by
            simp [innerScan, dialectColons, hy]
          rw [hstep]
          simp only [Option.toList_none, List.append_nil, List.tail_cons]
          have hnar : noAdjacentColons r = true :=
            noAdjacentColons_tail y r (noAdjacentColons_tail ':' (y :: r) hna)
          have hrlen : r.length ≤ n := by
            simp only [List.length_cons] at hlen; omega
          exact ih r hrlen hnar _ _ _
      · have hstep :
            innerScan dialectColons dialectColons.delimiter_
              (x :: xs) sub q = ⟨false, x :: xs, sub, q, none⟩ := by
          simp [innerScan, dialectColons, hx]
        rw [hstep]
        simp only [Option.toList_none, List.append_nil, List.tail_cons]
        have hnaxs : noAdjacentColons xs = true := noAdjacentColons_tail x xs hna
        have hxlen : xs.length ≤ n := by
          simp only [List.length_cons] at hlen; omega
        exact ih xs hxlen hnaxs _ _ _

/-- C3 counterexample: with the two-character delimiter `"::"`, the line
`a:b` does not keep the lone colon literally in the field: `split`
returns `ab`, not `a:b` (the partially matched colon is consumed and
dropped). -/
theorem c3_counterexample :
    split dialectColons ("a:b".toList) ≠ [("a:b".toList)] := by
  decide

/-- C3 amended: a field boundary is recognized only on a full match of
the multi-character delimiter with the quote counter even — a line with
no occurrence of `"::"` is never split (at most one field results) —
but a lone `:` is not kept literally: it is consumed by the partial
delimiter match and dropped (`a:b` yields the single field `ab`), while
a full `"::"` splits (`a::b` yields `a`,`b`) and a `"::"` inside an open
quoted field does not split (though one of its colons is still
consumed). -/
theorem c3_amended_lone_colon_consumed :
    (∀ s : Str, noAdjacentColons s = true →
      (split dialectColons s).length ≤ 1) ∧
    split dialectColons ("a:b".toList) = [['a', 'b']] ∧
    split dialectColons ("a::b".toList) = [['a'], ['b']] ∧
    split dialectColons ("\"a::b\"".toList) = [("\"a:b\"".toList)] := by
  refine ⟨?_, by decide, by decide, by decide⟩
  intro s h
  have hmain := scanAux_colons_no_push s.length s (Nat.le_refl _) h [] [] 0
  rw [split]
  split
  · rw [hmain]; simp
  · rw [hmain]; simp

/-- C3 witness: the hypotheses of the amended universal statement are
satisfiable — `a:b` has no adjacent colons and indeed yields at most one
field. -/
theorem c3_witness :
    noAdjacentColons ("a:b".toList) = true ∧
    (split dialectColons ("a:b".toList)).length ≤ 1 :=
  ⟨by decide, c3_amended_lone_colon_consumed.1 ("a:b".toList) (by decide)⟩

/-- The division of a line always has at least one (possibly empty)
field. -/
theorem divide_ne_nil (c : Char) : ∀ s : Str, divide c s ≠ [] := by
  intro s
  cases s with
  | nil => simp [divide]
  | cons x xs =>
    rw [divide]
    split
    · simp
    · split <;> simp

/-- Reattaching the last field after `dropLast`. -/
theorem dropLast_append_getLastD {α : Type} :
    ∀ (x : α) (l : List α) (a : α),
      (x :: l).dropLast ++ [(x :: l).getLastD a] = x :: l := by
  intro x l
  induction l generalizing x with
  | nil => intro a; simp
  | cons y t ih =>
    intro a
    rw [List.dropLast_cons₂, List.getLastD_cons, List.cons_append, ih y]

/-- One scanner step under a single-character delimiter at a matching,
unquoted position: the accumulated sub-field is trimmed and pushed, the
accumulator cleared, the counter reset. -/
theorem scanAux_single_match (d : Dialect) (c : Char)
    (hdelim : d.delimiter_ = [c]) (hskip : d.skip_initial_space_ = false)
    (hq : c ≠ d.quote_character_) (xs : Str) (res : List Str) (sub : Str) :
    scanAux d (c :: xs) res sub 0 = scanAux d xs (res ++ [trim d sub]) [] 0 := by
  rw [scanAux_cons, hdelim]
  have hstep : innerScan d [c] (c :: xs) sub 0 =
      ⟨true, c :: xs, [], 0, some (trim d sub)⟩ := by
    simp [innerScan, hskip]
  rw [hstep]
  simp [hq]

/-- One scanner step under a single-character delimiter at a
non-matching, non-quote position: the character is appended to the
accumulator. -/
theorem scanAux_single_nomatch (d : Dialect) (c : Char)
    (hdelim : d.delimiter_ = [c]) (x : Char) (hx : x ≠ c)
    (hq : x ≠ d.quote_character_) (xs : Str) (res : List Str) (sub : Str) :
    scanAux d (x :: xs) res sub 0 = scanAux d xs res (sub ++ [x]) 0 := by
  rw [scanAux_cons, hdelim]
  have hstep : innerScan d [c] (x :: xs) sub 0 =
      ⟨false, x :: xs, sub, 0, none⟩ := by
    simp [innerScan, hx]
  rw [hstep]
  simp [hq]

/-- Closed form of the scanner under a single-character delimiter on a
line without quote characters and without skip-initial-space: it
produces exactly the trimmed fields of the character-level division,
except that the last field stays in the accumulator. -/
theorem scanAux_single_char (d : Dialect) (c : Char)
    (hdelim : d.delimiter_ = [c]) (hskip : d.skip_initial_space_ = false) :
    ∀ (rest : Str) (res : List Str) (sub : Str),
      (∀ ch ∈ rest, ch ≠ d.quote_character_) →
      scanAux d rest res sub 0 =
        (res ++ ((((sub ++ (divide c rest).headD []) ::
            (divide c rest).tail).dropLast).map (trim d)),
         ((sub ++ (divide c rest).headD []) ::
            (divide c rest).tail).getLastD []) := by
  intro rest
  induction rest with
  | nil =>
    intro res sub _
    simp [scanAux_nil, divide]
  | cons x xs ih =>
    intro res sub h
    obtain ⟨dh, dt, hdx⟩ : ∃ dh dt, divide c xs = dh :: dt := by
      cases hv : divide c xs with
      | nil => exact absurd hv (divide_ne_nil c xs)
      | cons a b => exact ⟨a, b, rfl⟩
    have hxq : x ≠ d.quote_character_ := h x (List.mem_cons_self x xs)
    have hxs : ∀ ch ∈ xs, ch ≠ d.quote_character_ :=
      fun ch hch => h ch (List.mem_cons_of_mem x hch)
    by_cases hx : x = c
    · subst hx
      rw [scanAux_single_match d x hdelim hskip hxq xs res sub,
        ih (res ++ [trim d sub]) [] hxs, hdx, divide, if_pos rfl, hdx]
      simp [List.getLastD_cons]
    · rw [scanAux_single_nomatch d c hdelim x hx hxq xs res sub,
        ih res (sub ++ [x]) hxs, hdx, divide, if_neg hx, hdx]
      simp only [List.headD_cons, List.tail_cons, List.append_assoc,
        List.singleton_append]

/-- `Reader::split` under a single-character delimiter on a line without
quote characters and without skip-initial-space equals the trimmed
character-level division of the line, except that a final empty division
field (empty line, or line ending in the delimiter) is dropped. -/
theorem split_single_char (d : Dialect) (c : Char)
    (hdelim : d.delimiter_ = [c]) (hskip : d.skip_initial_space_ = false)
    (s : Str) (hq : ∀ ch ∈ s, ch ≠ d.quote_character_) :
    split d s =
      (if (divide c s).getLastD [] = [] then (divide c s).dropLast
       else divide c s).map (trim d) := by
  obtain ⟨dh, dt, hdx⟩ : ∃ dh dt, divide c s = dh :: dt := by
    cases hv : divide c s with
    | nil => exact absurd hv (divide_ne_nil c s)
    | cons a b => exact ⟨a, b, rfl⟩
  have hmain := scanAux_single_char d c hdelim hskip s [] [] hq
  rw [hdx] at hmain
  simp only [List.nil_append, List.headD_cons, List.tail_cons] at hmain
  rw [split, hdx]
  simp only [hmain]
  by_cases hlast : (dh :: dt).getLastD [] = []
  · rw [if_neg (not_not_intro hlast), if_pos hlast]
  · rw [if_pos hlast, if_neg hlast]
    have hsing : [trim d ((dh :: dt).getLastD [])] =
        List.map (trim d) [(dh :: dt).getLastD []] := rfl
    rw [hsing, ← List.map_append, dropLast_append_getLastD]

/-- Appending the delimiter character to a line appends one empty field
to its division. -/
theorem divide_append_delim (c : Char) :
    ∀ s : Str, divide c (s ++ [c]) = divide c s ++ [[]] := by
  intro s
  induction s with
  | nil => simp [divide]
  | cons x xs ih =>
    by_cases hx : x = c
    · rw [List.cons_append, divide, if_pos hx, ih, divide, if_pos hx,
        List.cons_append]
    · obtain ⟨dh, dt, hdx⟩ : ∃ dh dt, divide c xs = dh :: dt := by
        cases hv : divide c xs with
        | nil => exact absurd hv (divide_ne_nil c xs)
        | cons a b => exact ⟨a, b, rfl⟩
      rw [List.cons_append, divide, if_neg hx, ih, hdx, divide, if_neg hx, hdx]
      simp

/-- C4: at end of scan the accumulated sub-field is appended only when
non-empty, so for a line ending in a (recognized) delimiter — here:
single-character delimiter, no quote characters on the line, no
skip-initial-space — the division of the line ends in an empty field and
`split` returns the trimmed division with that one trailing empty field
silently dropped. -/
theorem c4_trailing_empty_field_dropped (d : Dialect) (c : Char) (s : Str)
    (hdelim : d.delimiter_ = [c]) (hskip : d.skip_initial_space_ = false)
    (hq : ∀ ch ∈ s ++ [c], ch ≠ d.quote_character_) :
    (divide c (s ++ [c])).getLastD [] = [] ∧
    split d (s ++ [c]) = ((divide c (s ++ [c])).dropLast).map (trim d) := by
  have hlast : (divide c (s ++ [c])).getLastD [] = [] := by
    rw [divide_append_delim]
    exact List.getLastD_concat _ _ _
  exact ⟨hlast, by rw [split_single_char d c hdelim hskip (s ++ [c]) hq,
    if_pos hlast]⟩

/-- C4 witness: the line `a,` under the comma dialect divides as
`a`,`` and splits as the single field `a`. -/
theorem c4_witness :
    (dialectComma.delimiter_ = [','] ∧
     dialectComma.skip_initial_space_ = false ∧
     (∀ ch ∈ ('a' :: [] : Str) ++ [','], ch ≠ dialectComma.quote_character_)) ∧
    ((divide ',' (('a' :: [] : Str) ++ [','])).getLastD [] = [] ∧
     split dialectComma (('a' :: [] : Str) ++ [',']) =
       ((divide ',' (('a' :: [] : Str) ++ [','])).dropLast).map
         (trim dialectComma)) :=
  ⟨⟨by decide, by decide, by decide⟩,
   c4_trailing_empty_field_dropped dialectComma ',' ('a' :: [])
    (by decide) (by decide) (by decide)⟩

/-- C5 counterexample: `split` does not always equal the trimmed
division: the line `a,` (trailing delimiter) loses its empty trailing
field, and with `skip_initial_space_` the line `a, b` loses the space
that the division keeps. -/
theorem c5_counterexample :
    split dialectComma ("a,".toList) ≠
      (divide ',' ("a,".toList)).map (trim dialectComma) ∧
    split dialectCommaSkip ("a, b".toList) ≠
      (divide ',' ("a, b".toList)).map (trim dialectCommaSkip) := by
  decide

/-- C5 amended: under a single-character delimiter, on a line without
quote characters, with skip-initial-space disabled, `split` equals the
line divided at every delimiter occurrence with every field trimmed per
the trim set — except that a final empty division field (an empty line,
or a line ending in the delimiter) is dropped. -/
theorem c5_amended_split_is_divide (d : Dialect) (c : Char) (s : Str)
    (hdelim : d.delimiter_ = [c]) (hskip : d.skip_initial_space_ = false)
    (hq : ∀ ch ∈ s, ch ≠ d.quote_character_) :
    split d s =
      (if (divide c s).getLastD [] = [] then (divide c s).dropLast
       else divide c s).map (trim d) :=
  split_single_char d c hdelim hskip s hq

/-- C5 witness: on `a,b` under the comma dialect the amended equation
holds with both fields kept. -/
theorem c5_witness :
    (dialectComma.delimiter_ = [','] ∧
     dialectComma.skip_initial_space_ = false ∧
     (∀ ch ∈ ("a,b".toList), ch ≠ dialectComma.quote_character_)) ∧
    split dialectComma ("a,b".toList) =
      (if (divide ',' ("a,b".toList)).getLastD [] = []
       then (divide ',' ("a,b".toList)).dropLast
       else divide ',' ("a,b".toList)).map (trim dialectComma) :=
  ⟨⟨by decide, by decide, by decide⟩,
   c5_amended_split_is_divide dialectComma ',' ("a,b".toList)
    (by decide) (by decide) (by decide)⟩

/-- The keys of a cons cell. -/
theorem rkeys_cons (p : Str × Str) (t : Rmap) :
    rkeys (p :: t) = p.1 :: rkeys t := rfl

/-- Insert-or-assign adds the key when absent and otherwise changes no
key. -/
theorem mem_rkeys_rinsert (a k v : Str) :
    ∀ m : Rmap, a ∈ rkeys (rinsert m k v) ↔ a = k ∨ a ∈ rkeys m := by
  intro m
  induction m with
  | nil => simp [rinsert, rkeys]
  | cons p t ih =>
    obtain ⟨k', v'⟩ := p
    by_cases hk : k' = k
    · subst hk
      have hr : rinsert ((k', v') :: t) k' v = (k', v) :: t := by
        simp [rinsert]
      rw [hr, rkeys_cons, rkeys_cons]
      simp only [List.mem_cons]
      tauto
    · simp only [rinsert, if_neg hk, rkeys_cons, List.mem_cons, ih]
      tauto

/-- Assigning to a key that is already present leaves the key list
unchanged. -/
theorem rkeys_rinsert_of_mem (k v : Str) :
    ∀ m : Rmap, k ∈ rkeys m → rkeys (rinsert m k v) = rkeys m := by
  intro m
  induction m with
  | nil => intro h; simp [rkeys] at h
  | cons p t ih =>
    intro h
    obtain ⟨k', v'⟩ := p
    by_cases hk : k' = k
    · simp [rinsert, hk, rkeys_cons]
    · have hmem : k ∈ rkeys t := by
        rw [rkeys_cons, List.mem_cons] at h
        rcases h with h | h
        · exact absurd h.symm hk
        · exact h
      simp [rinsert, hk, rkeys_cons, ih hmem]

/-- Erasing removes exactly the erased key. -/
theorem mem_rkeys_rerase (a k : Str) (m : Rmap) :
    a ∈ rkeys (rerase m k) ↔ a ∈ rkeys m ∧ a ≠ k := by
  simp only [rerase, rkeys, List.mem_map, List.mem_filter, decide_eq_true_eq]
  constructor
  · rintro ⟨x, ⟨hxm, hxk⟩, rfl⟩
    exact ⟨⟨x, hxm, rfl⟩, hxk⟩
  · rintro ⟨⟨x, hxm, rfl⟩, hak⟩
    exact ⟨x, ⟨hxm, hak⟩, rfl⟩

/-- Keys after initializing one empty entry per header. -/
theorem mem_rkeys_foldl_rinsert (a : Str) :
    ∀ (hs : List Str) (m0 : Rmap),
      a ∈ rkeys (hs.foldl (fun m h => rinsert m h []) m0) ↔
        a ∈ hs ∨ a ∈ rkeys m0 := by
  intro hs
  induction hs with
  | nil => simp
  | cons hd tl ih =>
    intro m0
    rw [List.foldl_cons, ih, mem_rkeys_rinsert, List.mem_cons]
    tauto

/-- Keys after erasing every ignored column. -/
theorem mem_rkeys_foldl_rerase (a : Str) :
    ∀ (ig : List Str) (m0 : Rmap),
      a ∈ rkeys (ig.foldl (fun m k => rerase m k) m0) ↔
        a ∈ rkeys m0 ∧ a ∉ ig := by
  intro ig
  induction ig with
  | nil => simp
  | cons i it ih =>
    intro m0
    rw [List.foldl_cons, ih, mem_rkeys_rerase, List.mem_cons]
    tauto

/-- The keys of the initial `current_row_` are exactly the headers minus
the ignored columns. -/
theorem mem_rkeys_initRow (headers ignore : List Str) (a : Str) :
    a ∈ rkeys (initRow headers ignore) ↔ (a ∈ headers ∧ a ∉ ignore) := by
  rw [initRow, mem_rkeys_foldl_rerase, mem_rkeys_foldl_rinsert]
  simp [rkeys]

/-- With an empty header list the assembler never emits a row (the
row-boundary condition `index % cols == 0` with `cols = 0` never fires
for the incremented index). -/
theorem pv_rows_headers_nil (ignore : List Str) (expected : Nat) :
    ∀ (values : List Str) (index nrows : Nat) (cur : Rmap),
      (process_values_aux [] ignore expected values index nrows cur).rows = [] := by
  intro values
  induction values with
  | nil => intros; rfl
  | cons v rest ih =>
    intro index nrows cur
    simp only [process_values_aux]
    by_cases hstop : nrows = expected
    · simp [hstop]
    · rw [if_neg hstop]
      simp only [List.length_nil, Nat.mod_zero]
      rw [if_neg (Nat.succ_ne_zero index)]
      exact ih _ _ _

/-- Key-set invariant of the assembly loop: every row it emits has
exactly the non-ignored header names as keys (writes only touch
non-ignored header columns, which are already present). -/
theorem pv_rows_keys (headers ignore : List Str) (expected : Nat)
    (hne : headers ≠ []) :
    ∀ (values : List Str) (index nrows : Nat) (cur : Rmap),
      (∀ a, a ∈ rkeys cur ↔ (a ∈ headers ∧ a ∉ ignore)) →
      ∀ r ∈ (process_values_aux headers ignore expected values index nrows cur).rows,
        ∀ a, a ∈ rkeys r ↔ (a ∈ headers ∧ a ∉ ignore) := by
  intro values
  induction values with
  | nil => intro index nrows cur hcur r hr; simp [process_values_aux] at hr
  | cons v rest ih =>
    intro index nrows cur hcur r hr
    simp only [process_values_aux] at hr
    by_cases hstop : nrows = expected
    · simp [hstop] at hr
    · rw [if_neg hstop] at hr
      have hcur1 : ∀ a,
          a ∈ rkeys (if headers.getD (index % headers.length) [] ∈ ignore
            then cur
            else rinsert cur (headers.getD (index % headers.length) []) v) ↔
            (a ∈ headers ∧ a ∉ ignore) := by
        split
        · exact hcur
        next hnotig =>
          intro a
          have hlt : index % headers.length < headers.length :=
            Nat.mod_lt _ (List.length_pos.mpr hne)
          have hcol : headers.getD (index % headers.length) [] ∈ headers := by
            rw [List.getD_eq_getElem headers [] hlt]
            exact List.getElem_mem hlt
          have hkey : headers.getD (index % headers.length) [] ∈ rkeys cur :=
            (hcur _).mpr ⟨hcol, hnotig⟩
          rw [rkeys_rinsert_of_mem _ v cur hkey]
          exact hcur a
      by_cases hemit : (index + 1) % headers.length = 0
      · rw [if_pos hemit] at hr
        simp only [List.mem_cons] at hr
        rcases hr with hr | hr
        · subst hr; exact hcur1
        · exact ih (index + 1) (nrows + 1) _ hcur1 r hr
      · rw [if_neg hemit] at hr
        exact ih (index + 1) nrows _ hcur1 r hr

/-- The number of rows the assembler emits does not depend on the ignore
set or on the contents of the row buffer (ignored columns still consume
their index slot). -/
theorem pv_rows_length_indep (headers : List Str) (expected : Nat)
    (ig1 ig2 : List Str) :
    ∀ (values : List Str) (index nrows : Nat) (cur1 cur2 : Rmap),
      (process_values_aux headers ig1 expected values index nrows cur1).rows.length =
      (process_values_aux headers ig2 expected values index nrows cur2).rows.length := by
  intro values
  induction values with
  | nil => intros; rfl
  | cons v rest ih =>
    intro index nrows cur1 cur2
    simp only [process_values_aux]
    by_cases hstop : nrows = expected
    · simp [hstop]
    · rw [if_neg hstop, if_neg hstop]
      by_cases hemit : (index + 1) % headers.length = 0
      · rw [if_pos hemit, if_pos hemit]
        simp only [List.length_cons]
        rw [ih]
      · rw [if_neg hemit, if_neg hemit]
        exact ih _ _ _ _

/-- C6: under a dialect with a non-empty ignore set, every row the
Assembly Stage produces has exactly the header names minus the ignored
names as its keys — an ignored name is never a key — while the number of
produced rows is the same as without ignoring, because an ignored column
still consumes its round-robin index slot. -/
theorem c6_ignored_columns_never_keys (headers ignore : List Str)
    (expected : Nat) (values : List Str) (_hig : ignore ≠ []) :
    (∀ r ∈ (process_values headers ignore expected values
        (initRow headers ignore)).rows,
      ∀ a, (a ∈ rkeys r ↔ (a ∈ headers ∧ a ∉ ignore)) ∧
        (a ∈ ignore → a ∉ rkeys r)) ∧
    (process_values headers ignore expected values
        (initRow headers ignore)).rows.length =
      (process_values headers [] expected values (initRow headers [])).rows.length := by
  constructor
  · intro r hr a
    by_cases hne : headers = []
    · subst hne
      rw [process_values, pv_rows_headers_nil] at hr
      simp at hr
    · have hkeys := pv_rows_keys headers ignore expected hne values 0 0 _
        (fun b => mem_rkeys_initRow headers ignore b) r hr a
      exact ⟨hkeys, fun haig hmem => (hkeys.mp hmem).2 haig⟩
  · exact pv_rows_length_indep headers expected ignore [] values 0 0 _ _

/-- C6 witness: headers `a`,`b` with `b` ignored, one expected row, two
values — the produced row has exactly key `a` and the row count matches
the no-ignore run. -/
theorem c6_witness :
    (["b".toList] : List Str) ≠ [] ∧
    ((∀ r ∈ (process_values ["a".toList, "b".toList] ["b".toList] 1
        ["1".toList, "2".toList]
        (initRow ["a".toList, "b".toList] ["b".toList])).rows,
      ∀ a, (a ∈ rkeys r ↔ (a ∈ (["a".toList, "b".toList] : List Str) ∧
          a ∉ (["b".toList] : List Str))) ∧
        (a ∈ (["b".toList] : List Str) → a ∉ rkeys r)) ∧
    (process_values ["a".toList, "b".toList] ["b".toList] 1
        ["1".toList, "2".toList]
        (initRow ["a".toList, "b".toList] ["b".toList])).rows.length =
      (process_values ["a".toList, "b".toList] [] 1
        ["1".toList, "2".toList]
        (initRow ["a".toList, "b".toList] [])).rows.length) :=
  ⟨by decide,
   c6_ignored_columns_never_keys ["a".toList, "b".toList] ["b".toList] 1
    ["1".toList, "2".toList] (by decide)⟩

/-- The published row counts are consecutive starting just above the
entry row count. -/
theorem pv_pubs_range (headers ignore : List Str) (expected : Nat) :
    ∀ (values : List Str) (index nrows : Nat) (cur : Rmap),
      (process_values_aux headers ignore expected values index nrows cur).pubs =
        List.range' (nrows + 1)
          (process_values_aux headers ignore expected values index nrows cur).pubs.length := by
  intro values
  induction values with
  | nil => intros; rfl
  | cons v rest ih =>
    intro index nrows cur
    simp only [process_values_aux]
    by_cases hstop : nrows = expected
    · simp [hstop]
    · rw [if_neg hstop]
      by_cases hemit : (index + 1) % headers.length = 0
      · rw [if_pos hemit]
        simp only [List.length_cons]
        rw [List.range'_succ]
        exact congrArg _ (ih (index + 1) (nrows + 1) _)
      · rw [if_neg hemit]
        exact ih _ _ _

/-- The assembler never publishes past `expected`. -/
theorem pv_pubs_len_le (headers ignore : List Str) (expected : Nat) :
    ∀ (values : List Str) (index nrows : Nat) (cur : Rmap),
      nrows ≤ expected →
      nrows + (process_values_aux headers ignore expected values index nrows cur).pubs.length ≤
        expected := by
  intro values
  induction values with
  | nil => intro index nrows cur h; simpa using h
  | cons v rest ih =>
    intro index nrows cur h
    simp only [process_values_aux]
    by_cases hstop : nrows = expected
    · simp [hstop]
    · rw [if_neg hstop]
      by_cases hemit : (index + 1) % headers.length = 0
      · rw [if_pos hemit]
        have h1 : nrows + 1 ≤ expected := Nat.lt_of_le_of_ne h hstop
        have h2 := ih (index + 1) (nrows + 1)
          (if headers.getD (index % headers.length) [] ∈ ignore then cur
           else rinsert cur (headers.getD (index % headers.length) []) v) h1
        simp only [List.length_cons]
        omega
      · rw [if_neg hemit]
        exact ih _ _ _ h

/-- Consecutive naturals are a non-decreasing chain. -/
theorem chain'_le_range' : ∀ (n s : Nat), List.Chain' (· ≤ ·) (List.range' s n) := by
  intro n
  induction n with
  | zero => intro s; simp
  | succ m ih =>
    intro s
    rw [List.range'_succ]
    cases m with
    | zero => simp
    | succ k =>
      rw [List.range'_succ]
      rw [List.chain'_cons]
      exact ⟨Nat.le_succ s, by rw [← List.range'_succ]; exact ih (s + 1)⟩

/-- C8: over a run of the Assembly Stage, the sequence of values
published on the `number_of_rows_processed_` queue is non-decreasing,
every published value is bounded by `expected_number_of_rows`, and at
most `expected_number_of_rows` values are ever published (the stage
stops once the counter reaches the expected count). -/
theorem c8_processed_count_monotone_bounded (headers ignore : List Str)
    (expected : Nat) (values : List Str) (cur0 : Rmap)
    (_hcols : headers ≠ []) :
    List.Chain' (· ≤ ·) (process_values headers ignore expected values cur0).pubs ∧
    (∀ x ∈ (process_values headers ignore expected values cur0).pubs,
      x ≤ expected) ∧
    (process_values headers ignore expected values cur0).pubs.length ≤ expected := by
  have hrange := pv_pubs_range headers ignore expected values 0 0 cur0
  have hlen := pv_pubs_len_le headers ignore expected values 0 0 cur0 (Nat.zero_le _)
  simp only [process_values] at hrange hlen ⊢
  refine ⟨?_, ?_, ?_⟩
  · rw [hrange]; exact chain'_le_range' _ _
  · intro x hx
    rw [hrange] at hx
    have hb := List.mem_range'_1.mp hx
    omega
  · omega

/-- C8 witness: one header column, three values, two expected rows — the
published counts 1, 2 are non-decreasing, bounded by 2, and publication
stops at 2. -/
theorem c8_witness :
    (["a".toList] : List Str) ≠ [] ∧
    (List.Chain' (· ≤ ·) (process_values ["a".toList] [] 2
        ["1".toList, "2".toList, "3".toList] []).pubs ∧
    (∀ x ∈ (process_values ["a".toList] [] 2
        ["1".toList, "2".toList, "3".toList] []).pubs, x ≤ 2) ∧
    (process_values ["a".toList] [] 2
        ["1".toList, "2".toList, "3".toList] []).pubs.length ≤ 2) :=
  ⟨by decide,
   c8_processed_count_monotone_bounded ["a".toList] [] 2
    ["1".toList, "2".toList, "3".toList] [] (by decide)⟩

end Csv
